import Mathlib

/-!
Verification development for the replicated, persisted history store of
`screen_inu` (`src/app/src-tauri/src/sync.rs`).

The store (`SyncManager`) owns one replicated document (a `LoroDoc` from the
external Loro CRDT engine) and one backing file path.  The engine itself is an
opaque leaf dependency; following the design document it is modelled here as a
named map container of nested map containers with last-writer-wins conflict
resolution at the container level and an idempotent, commutative snapshot
merge.  Everything layered on top of the engine (`add_item`, `delete_item`,
`get_all_items`, `import_snapshot`, construction/hydration, persistence) is
translated directly from the Rust source.

Machine integers are modelled as `Int`/`Nat`.  The source stores the `i64`
timestamp as an IEEE-754 double (`item.timestamp as f64`) and reads it back
with a saturating cast (`*d as i64`); both casts are modelled exactly, on
integers, by `roundF64` (round to nearest representable double, ties to even)
and `f64ToI64` (saturating cast).
-/

/-! ### Model of the `i64 as f64` and `f64 as i64` casts -/

/-- Fuel-driven base-2 logarithm: `log2f f n` equals `Nat.log2 n` whenever
`n < 2 ^ f`.  Written with explicit fuel so that it is structurally recursive
and kernel-computable on large numerals. -/
def log2f : Nat → Nat → Nat
  | 0, _ => 0
  | f + 1, n => if n < 2 then 0 else log2f f (n / 2) + 1

/-- Base-2 logarithm adequate for every value of 64-bit magnitude. -/
def natLog2 (n : Nat) : Nat := log2f 64 n

/-- Round a natural number to the nearest value exactly representable as an
IEEE-754 double (53-bit significand), ties to even.  This is the value that
the Rust cast `n as f64` produces, for `n ≤ 2 ^ 63`. -/
def roundNat53 (n : Nat) : Nat :=
  if n < 2 ^ 53 then n
  else
    let e := natLog2 n
    let ulp := 2 ^ (e - 52)
    let q := n / ulp
    let r := n % ulp
    if r < ulp / 2 then q * ulp
    else if ulp / 2 < r then (q + 1) * ulp
    else if q % 2 = 0 then q * ulp else (q + 1) * ulp

/-- The exact value of the double produced by the Rust cast `v as i64 as f64`,
for `v` in the `i64` range: round to nearest representable double, ties to
even. -/
def roundF64 (v : Int) : Int :=
  if 0 ≤ v then (roundNat53 v.natAbs : Nat) else -(roundNat53 v.natAbs : Nat)

/-- The Rust cast `d as i64` applied to a double holding the exact integer
value `d`: the identity inside the `i64` range, saturating outside it. -/
def f64ToI64 (d : Int) : Int :=
  if d < -(2 ^ 63) then -(2 ^ 63)
  else if 2 ^ 63 - 1 < d then 2 ^ 63 - 1
  else d

/-- Whether the integer `v` is exactly representable as an IEEE-754 double:
either its magnitude is below `2 ^ 53`, or it is a multiple of the spacing
`2 ^ (e - 52)` of doubles at its binade. -/
def isRepF64 (v : Int) : Bool :=
  decide (v.natAbs < 2 ^ 53) ||
    decide (v.natAbs % 2 ^ (natLog2 v.natAbs - 52) = 0)

/-! ### Scalar values and field maps

A nested item container of the Loro document holds scalar fields.  The source
writes strings (`text`, `lang`, `id`) and one double (`timestamp`); its reader
`get_i64` also accepts an engine-level `I64`, so that variant is kept. -/

inductive LoroScalar where
  | str (s : String)
  | dbl (d : Int)
  | i64 (i : Int)
deriving DecidableEq

/-- The field map of one nested item container: association list from field
name to scalar value. -/
abbrev FieldMap := List (String × LoroScalar)

def fmGet : FieldMap → String → Option LoroScalar
  | [], _ => none
  | (k, v) :: rest, key => if k = key then some v else fmGet rest key

/-- Insert/overwrite one scalar field, as `LoroMap::insert` does. -/
def fmInsert (m : FieldMap) (key : String) (v : LoroScalar) : FieldMap :=
  m.filter (fun e => e.1 != key) ++ [(key, v)]

/-- The closure `get_str` of `get_all_items`: extract a string field,
defaulting to `""` when absent or of the wrong type. -/
def get_str (m : FieldMap) (k : String) : String :=
  match fmGet m k with
  | some (.str s) => s
  | _ => ""

/-- The closure `get_i64` of `get_all_items`: extract an integer field,
casting a double back with `as i64` and defaulting to `0`. -/
def get_i64 (m : FieldMap) (k : String) : Int :=
  match fmGet m k with
  | some (.dbl d) => f64ToI64 d
  | some (.i64 i) => i
  | _ => 0

/-! ### The history map and the engine's merge

Modelled from the spec: the engine exposes one top-level map container
(`"history"`) keyed by item id, each value a nested container.  Inserting a
container at an existing key replaces it wholesale, and concurrent containers
at the same key resolve last-writer-wins by the engine's causal order, which
is modelled by a version stamp `(counter, peer)` compared lexicographically.
Causal deletion interplay (tombstones) is not modelled; no property below
exercises a delete concurrent with a merge. -/

structure Container where
  ver : Nat × Nat
  fields : FieldMap
deriving DecidableEq

/-- The `"history"` top-level map: association list from item id to its nested
container. -/
abbrev HistoryMap := List (String × Container)

def hmLookup : HistoryMap → String → Option Container
  | [], _ => none
  | (k, c) :: rest, key => if k = key then some c else hmLookup rest key

/-- Insert/overwrite the nested container at `k`, as
`LoroMap::insert_container` does (the previous container at `k`, if any, is
replaced wholesale). -/
def hmInsert (h : HistoryMap) (k : String) (c : Container) : HistoryMap :=
  h.filter (fun e => e.1 != k) ++ [(k, c)]

/-- Strict lexicographic comparison of version stamps. -/
def verLt (a b : Nat × Nat) : Bool :=
  decide (a.1 < b.1) || (decide (a.1 = b.1) && decide (a.2 < b.2))

/-- Conflict resolution of one local entry against the foreign map: the
container with the larger version stamp wins, ties keep the local side. -/
def mergeEntry (b : HistoryMap) (e : String × Container) : String × Container :=
  match hmLookup b e.1 with
  | some c => if verLt e.2.ver c.ver then (e.1, c) else e
  | none => e

/-- Modelled from the spec: the engine's snapshot merge on the `"history"`
map.  A causal union: every key of either side survives; at a common key the
container with the larger version stamp wins (ties keep the local side). -/
def mergeHistory (a b : HistoryMap) : HistoryMap :=
  a.map (mergeEntry b) ++ b.filter (fun e => (hmLookup a e.1).isNone)

/-! ### The document, snapshot bytes, and their decoder -/

/-- Modelled from the spec: the replicated document.  `peer` is the replica
identity chosen at creation, `clock` the operation counter, `history` the one
top-level map container this application uses. -/
structure LoroDoc where
  peer : Nat
  clock : Nat
  history : HistoryMap
deriving DecidableEq

/-- Modelled from the spec: the engine's opaque snapshot byte strings.  A
byte string either encodes a full snapshot of a document's state, or is
malformed (including the empty byte string, which carries no snapshot
header). -/
inductive Bytes where
  | snap (h : HistoryMap) (clock : Nat)
  | malformed (code : Nat)
  | empty
deriving DecidableEq

/-- The `bytes.is_empty()` test of `load_from_disk`. -/
def Bytes.isEmpty : Bytes → Bool
  | .empty => true
  | _ => false

/-- Modelled from the spec: the engine's snapshot decoder.  Only a full
snapshot decodes; a snapshot always encodes a document whose maps have unique
keys, so only such history maps are in the decoder's range.  Malformed or
empty byte strings do not decode. -/
def decodeBytes : Bytes → Option (HistoryMap × Nat)
  | .snap h c => if (h.map Prod.fst).Nodup then some (h, c) else none
  | _ => none

/-- Modelled from the spec: `doc.import(&bytes)` — decode and merge, failing
on undecodable bytes and leaving the local state untouched in that case. -/
def LoroDoc.importBytes (d : LoroDoc) (b : Bytes) : Except String LoroDoc :=
  match decodeBytes b with
  | none => .error "decode error"
  | some (h, c) =>
      .ok { d with history := mergeHistory d.history h, clock := max d.clock c }

/-- Modelled from the spec: `doc.export(ExportMode::Snapshot)` — a full
snapshot of the current state. -/
def LoroDoc.exportSnapshot (d : LoroDoc) : Bytes := .snap d.history d.clock

/-! ### The file system and the `SyncManager` -/

/-- The file system visible to the store: contents (or absence) of the file at
each path.  `fs path = none` models `path.exists()` returning `false`. -/
def FS := String → Option Bytes

def fsWrite (fs : FS) (path : String) (b : Bytes) : FS :=
  fun p => if p = path then some b else fs p

structure HistoryItem where
  id : String
  text : String
  timestamp : Int
  lang : String
deriving DecidableEq

structure SyncManager where
  doc : LoroDoc
  file_path : String
deriving DecidableEq

/-- `SyncManager::new`: fresh document; if a file exists at `path`, read it
and, unless it is empty, import it (`load_from_disk`), failing if the bytes do
not decode.  `peer` is the fresh document's replica identity. -/
def SyncManager.new (fs : FS) (path : String) (peer : Nat) :
    Except String SyncManager :=
  let doc : LoroDoc := { peer := peer, clock := 0, history := [] }
  match fs path with
  | none => .ok { doc := doc, file_path := path }
  | some bytes =>
      if bytes.isEmpty then .ok { doc := doc, file_path := path }
      else
        match doc.importBytes bytes with
        | .error e => .error e
        | .ok doc2 => .ok { doc := doc2, file_path := path }

/-- `save_to_disk`: export a full snapshot and rewrite the backing file. -/
def SyncManager.save_to_disk (m : SyncManager) (fs : FS) : FS :=
  fsWrite fs m.file_path m.doc.exportSnapshot

/-- The four field writes of `add_item`, in source order: `text`,
`timestamp` (stored as a double), `lang`, `id`. -/
def itemFieldMap (item : HistoryItem) : FieldMap :=
  fmInsert
    (fmInsert
      (fmInsert
        (fmInsert [] "text" (.str item.text))
        "timestamp" (.dbl (roundF64 item.timestamp)))
      "lang" (.str item.lang))
    "id" (.str item.id)

/-- `add_item`: insert a fresh nested container at `item.id` holding the four
fields, then persist.  The new container carries the document's current
version stamp and the operation counter advances. -/
def SyncManager.add_item (m : SyncManager) (fs : FS) (item : HistoryItem) :
    SyncManager × FS :=
  let cont : Container :=
    { ver := (m.doc.clock, m.doc.peer), fields := itemFieldMap item }
  let doc2 : LoroDoc :=
    { m.doc with
      clock := m.doc.clock + 1
      history := hmInsert m.doc.history item.id cont }
  let m2 : SyncManager := { m with doc := doc2 }
  (m2, m2.save_to_disk fs)

/-- `delete_item`: remove the container at `id` (a no-op when absent), then
persist. -/
def SyncManager.delete_item (m : SyncManager) (fs : FS) (id : String) :
    SyncManager × FS :=
  let doc2 : LoroDoc :=
    { m.doc with history := m.doc.history.filter (fun e => e.1 != id) }
  let m2 : SyncManager := { m with doc := doc2 }
  (m2, m2.save_to_disk fs)

/-- One extracted item of `get_all_items`: the id comes from the map key, the
remaining fields through `get_str`/`get_i64`. -/
def itemOfEntry (e : String × Container) : HistoryItem :=
  { id := e.1
    text := get_str e.2.fields "text"
    timestamp := get_i64 e.2.fields "timestamp"
    lang := get_str e.2.fields "lang" }

/-- The sort key of `get_all_items`:
`items.sort_by(|a, b| b.timestamp.cmp(&a.timestamp))`, i.e. timestamp
descending. -/
def tsGe (a b : HistoryItem) : Prop := b.timestamp ≤ a.timestamp

instance : DecidableRel tsGe := fun a b => Int.decLe b.timestamp a.timestamp

instance : IsTotal HistoryItem tsGe :=
  ⟨fun a b => le_total b.timestamp a.timestamp⟩

instance : IsTrans HistoryItem tsGe :=
  ⟨fun _ _ _ h1 h2 => le_trans h2 h1⟩

/-- `get_all_items`: extract every entry of the `"history"` map and sort by
timestamp descending.  (The source's stable sort runs on a hash map's
unspecified iteration order, so the relative order of equal timestamps is not
meaningful; any sort by the same comparator is a faithful model.) -/
def SyncManager.get_all_items (m : SyncManager) : List HistoryItem :=
  List.insertionSort tsGe (m.doc.history.map itemOfEntry)

/-- `import_snapshot`: merge foreign snapshot bytes into the local document,
then persist.  On a merge failure the error propagates and neither the
document nor the file changes. -/
def SyncManager.import_snapshot (m : SyncManager) (fs : FS) (b : Bytes) :
    Except String Unit × SyncManager × FS :=
  match m.doc.importBytes b with
  | .error e => (.error e, m, fs)
  | .ok doc2 =>
      let m2 : SyncManager := { m with doc := doc2 }
      (.ok (), m2, m2.save_to_disk fs)

/-! ### The id invariant -/

/-- Every surviving entry of the `"history"` map has a non-empty id used both
as the map key and as the stored `id` field. -/
def WFHistory (h : HistoryMap) : Prop :=
  ∀ e ∈ h, e.1 ≠ "" ∧ fmGet e.2.fields "id" = some (.str e.1)

/-! ### Concrete fixtures used by witnesses and counterexamples -/

def emptyFS : FS := fun _ => none

def dogItem : HistoryItem := ⟨"dog", "Dog", 100, "eng"⟩

def catItem : HistoryItem := ⟨"cat", "Cat", 200, "eng"⟩

/-- Replica A of the merge scenario: fresh store at `"ha"` (peer 1) that
added `dogItem`. -/
def replicaA : SyncManager × FS :=
  ((SyncManager.new emptyFS "ha" 1).toOption.getD
    ⟨⟨1, 0, []⟩, "ha"⟩).add_item emptyFS dogItem

/-- Replica B of the merge scenario: fresh store at `"hb"` (peer 2) that
added `catItem`. -/
def replicaB : SyncManager × FS :=
  ((SyncManager.new emptyFS "hb" 2).toOption.getD
    ⟨⟨2, 0, []⟩, "hb"⟩).add_item emptyFS catItem

/-- An item whose timestamp `2 ^ 53 + 1` is not exactly representable as a
double. -/
def hugeItem : HistoryItem := ⟨"a", "t", 2 ^ 53 + 1, "l"⟩

/-- A fresh store at `"h"` (peer 1), as produced by `SyncManager.new` on an
empty file system. -/
def ceStore : SyncManager := ⟨⟨1, 0, []⟩, "h"⟩

/-- The file system after `ceStore` added `hugeItem`. -/
def ceFS1 : FS := (ceStore.add_item emptyFS hugeItem).2

/-- The store obtained by reconstructing from `ceFS1` at the same path. -/
def ceM2 : SyncManager :=
  (SyncManager.new ceFS1 "h" 2).toOption.getD ⟨⟨2, 0, []⟩, "h"⟩

/-- A file system holding an empty file at `"h"`. -/
def emptyFileFS : FS := fun p => if p = "h" then some Bytes.empty else none

/-- Chain one `add_item` through a store-and-file-system pair. -/
def addStep (p : SyncManager × FS) (item : HistoryItem) : SyncManager × FS :=
  p.1.add_item p.2 item

/-- A store that added items with timestamps `100`, `300`, `200`. -/
def ordScenario : SyncManager × FS :=
  addStep (addStep (addStep (⟨⟨0, 0, []⟩, "p"⟩, emptyFS)
    ⟨"x", "X", 100, "e"⟩) ⟨"y", "Y", 300, "e"⟩) ⟨"z", "Z", 200, "e"⟩

/-! ### Lemmas about the map model -/

theorem hmLookup_isSome_iff (h : HistoryMap) (k : String) :
    (hmLookup h k).isSome = true ↔ k ∈ h.map Prod.fst := by
  induction h with
  | nil => simp [hmLookup]
  | cons e rest ih =>
    obtain ⟨k', c⟩ := e
    by_cases hk : k' = k
    · subst hk
      simp [hmLookup]
    · simp only [hmLookup, if_neg hk, List.map_cons, List.mem_cons]
      rw [ih]
      constructor
      · exact fun hmem => Or.inr hmem
      · rintro (hke | hmem)
        · exact absurd hke.symm hk
        · exact hmem

theorem hmLookup_eq_none_iff (h : HistoryMap) (k : String) :
    hmLookup h k = none ↔ ∀ e ∈ h, e.1 ≠ k := by
  induction h with
  | nil => simp [hmLookup]
  | cons e rest ih =>
    obtain ⟨k', c⟩ := e
    by_cases hk : k' = k
    · subst hk
      simp [hmLookup]
    · simp [hmLookup, if_neg hk, ih, hk]

theorem hmLookup_mem {h : HistoryMap} {k : String} {c : Container}
    (hl : hmLookup h k = some c) : (k, c) ∈ h := by
  induction h with
  | nil => cases hl
  | cons e rest ih =>
    obtain ⟨k', c'⟩ := e
    by_cases hk : k' = k
    · subst hk
      rw [hmLookup, if_pos rfl] at hl
      cases hl
      exact List.mem_cons_self _ _
    · rw [hmLookup, if_neg hk] at hl
      exact List.mem_cons_of_mem _ (ih hl)

theorem hmLookup_mem_of_nodup {h : HistoryMap} {k : String} {c : Container}
    (hn : (h.map Prod.fst).Nodup) (hm : (k, c) ∈ h) : hmLookup h k = some c := by
  induction h with
  | nil => cases hm
  | cons e rest ih =>
    obtain ⟨k', c'⟩ := e
    simp only [List.map_cons, List.nodup_cons] at hn
    rcases List.mem_cons.mp hm with he | he
    · cases he
      rw [hmLookup, if_pos rfl]
    · have hk : k' ≠ k := by
        intro hkk
        subst hkk
        exact hn.1 (List.mem_map.mpr ⟨(k', c), he, rfl⟩)
      rw [hmLookup, if_neg hk]
      exact ih hn.2 he

theorem verLt_irrefl (v : Nat × Nat) : verLt v v = false := by
  simp [verLt]

theorem mergeEntry_fst (b : HistoryMap) (e : String × Container) :
    (mergeEntry b e).1 = e.1 := by
  unfold mergeEntry
  cases hmLookup b e.1 with
  | none => rfl
  | some c =>
    by_cases hv : verLt e.2.ver c.ver = true
    · simp [hv]
    · simp [hv]

theorem map_self_of_mem {α : Type _} {f : α → α} {l : List α}
    (h : ∀ x ∈ l, f x = x) : l.map f = l := by
  induction l with
  | nil => rfl
  | cons x xs ih =>
    rw [List.map_cons, h x (List.mem_cons_self x xs),
      ih fun y hy => h y (List.mem_cons_of_mem x hy)]

theorem map_fst_map_mergeEntry (a b : HistoryMap) :
    (a.map (mergeEntry b)).map Prod.fst = a.map Prod.fst := by
  rw [List.map_map]
  induction a with
  | nil => rfl
  | cons e rest ih =>
    simp only [List.map_cons, Function.comp_apply, mergeEntry_fst]
    rw [ih]

theorem mergeHistory_def (a b : HistoryMap) :
    mergeHistory a b
      = a.map (mergeEntry b) ++ b.filter (fun e => (hmLookup a e.1).isNone) := rfl

theorem mem_keys_mergeHistory {a b : HistoryMap} {k : String}
    (hk : k ∈ b.map Prod.fst) : k ∈ (mergeHistory a b).map Prod.fst := by
  rw [mergeHistory_def, List.map_append]
  by_cases ha : k ∈ a.map Prod.fst
  · exact List.mem_append_left _ (by rw [map_fst_map_mergeEntry]; exact ha)
  · rcases List.mem_map.mp hk with ⟨e, he, hek⟩
    apply List.mem_append_right
    apply List.mem_map.mpr
    refine ⟨e, ?_, hek⟩
    apply List.mem_filter.mpr
    refine ⟨he, ?_⟩
    have : hmLookup a e.1 = none := by
      cases hla : hmLookup a e.1 with
      | none => rfl
      | some c =>
        exfalso
        apply ha
        rw [← hek]
        exact (hmLookup_isSome_iff a e.1).mp (by rw [hla]; rfl)
    rw [this]
    rfl

theorem mergeEntry_mergeEntry (b : HistoryMap) (e : String × Container) :
    mergeEntry b (mergeEntry b e) = mergeEntry b e := by
  cases hb : hmLookup b e.1 with
  | none =>
    have h1 : mergeEntry b e = e := by simp [mergeEntry, hb]
    rw [h1]
    exact h1
  | some c =>
    by_cases hv : verLt e.2.ver c.ver = true
    · have h1 : mergeEntry b e = (e.1, c) := by simp [mergeEntry, hb, hv]
      rw [h1]
      simp [mergeEntry, hb, verLt_irrefl]
    · have h1 : mergeEntry b e = e := by simp [mergeEntry, hb, hv]
      rw [h1]
      exact h1

theorem mergeEntry_of_mem_nodup {b : HistoryMap} {e : String × Container}
    (hn : (b.map Prod.fst).Nodup) (he : e ∈ b) : mergeEntry b e = e := by
  obtain ⟨k, c⟩ := e
  have hl : hmLookup b k = some c := hmLookup_mem_of_nodup hn he
  simp [mergeEntry, hl, verLt_irrefl]

theorem mergeHistory_idem (a b : HistoryMap)
    (hb : (b.map Prod.fst).Nodup) :
    mergeHistory (mergeHistory a b) b = mergeHistory a b := by
  have hfilter :
      b.filter (fun e => (hmLookup (mergeHistory a b) e.1).isNone) = [] := by
    rw [List.filter_eq_nil_iff]
    intro e he
    have hk : e.1 ∈ (mergeHistory a b).map Prod.fst :=
      mem_keys_mergeHistory (List.mem_map.mpr ⟨e, he, rfl⟩)
    have hs := (hmLookup_isSome_iff (mergeHistory a b) e.1).mpr hk
    cases hval : hmLookup (mergeHistory a b) e.1 with
    | none => rw [hval] at hs; simp at hs
    | some c => simp [hval]
  have hmap : (mergeHistory a b).map (mergeEntry b) = mergeHistory a b := by
    apply map_self_of_mem
    intro e he
    rw [mergeHistory_def] at he
    rcases List.mem_append.mp he with h1 | h2
    · rcases List.mem_map.mp h1 with ⟨e0, _, rfl⟩
      exact mergeEntry_mergeEntry b e0
    · exact mergeEntry_of_mem_nodup hb (List.mem_filter.mp h2).1
  conv_lhs => rw [mergeHistory_def]
  rw [hmap, hfilter, List.append_nil]

theorem mergeHistory_nil (h : HistoryMap) : mergeHistory [] h = h := by
  rw [mergeHistory_def]
  simp only [List.map_nil, List.nil_append]
  apply List.filter_eq_self.mpr
  intro e _
  rfl

theorem mergeHistory_singletons {eA eB : String × Container}
    (hne : eA.1 ≠ eB.1) : mergeHistory [eA] [eB] = [eA, eB] := by
  rw [mergeHistory_def]
  have h1 : mergeEntry [eB] eA = eA := by
    have : hmLookup [eB] eA.1 = none := by
      obtain ⟨kb, cb⟩ := eB
      rw [hmLookup, if_neg (fun hkk => hne (by rw [hkk]))]
      rfl
    simp [mergeEntry, this]
  have h2 : hmLookup [eA] eB.1 = none := by
    obtain ⟨ka, ca⟩ := eA
    rw [hmLookup, if_neg (fun hkk => hne (by simp [hkk]))]
    rfl
  simp [h1, h2]

/-! ### Lemmas about insertion and the store operations -/

theorem mem_hmInsert (h : HistoryMap) (k : String) (c : Container) :
    (k, c) ∈ hmInsert h k c := by
  unfold hmInsert
  exact List.mem_append_right _ (List.mem_singleton.mpr rfl)

theorem hmInsert_keys_nodup {h : HistoryMap} {k : String} {c : Container}
    (hn : (h.map Prod.fst).Nodup) :
    ((hmInsert h k c).map Prod.fst).Nodup := by
  unfold hmInsert
  rw [List.map_append]
  apply List.Nodup.append
  · exact hn.sublist ((List.filter_sublist h).map Prod.fst)
  · simp
  · intro x hx1 hx2
    simp only [List.map_cons, List.map_nil, List.mem_singleton] at hx2
    rcases List.mem_map.mp hx1 with ⟨e, he, heq⟩
    have hne := (List.mem_filter.mp he).2
    rw [bne_iff_ne] at hne
    exact hne (by rw [heq, hx2])

theorem decodeBytes_nodup {b : Bytes} {hm : HistoryMap} {c : Nat}
    (h : decodeBytes b = some (hm, c)) : (hm.map Prod.fst).Nodup := by
  unfold decodeBytes at h
  split at h
  · split at h
    · cases h
      assumption
    · cases h
  · cases h

theorem decodeBytes_not_empty {b : Bytes} {x : HistoryMap × Nat}
    (h : decodeBytes b = some x) : b.isEmpty = false := by
  cases b with
  | snap hm c => rfl
  | malformed code => cases h
  | empty => cases h

theorem importBytes_ok_inv {d d2 : LoroDoc} {b : Bytes}
    (h : d.importBytes b = .ok d2) :
    ∃ hm c, decodeBytes b = some (hm, c) ∧
      d2 = { d with history := mergeHistory d.history hm,
                    clock := max d.clock c } := by
  unfold LoroDoc.importBytes at h
  split at h
  · cases h
  · next hm c _ =>
      cases h
      exact ⟨hm, c, by assumption, rfl⟩

theorem new_ok_spec {fs : FS} {path : String} {p : Nat} {m : SyncManager}
    (h : SyncManager.new fs path p = .ok m) :
    m.file_path = path ∧ (m.doc.history.map Prod.fst).Nodup := by
  unfold SyncManager.new at h
  split at h
  · cases h
    exact ⟨rfl, by simp⟩
  · split at h
    · cases h
      exact ⟨rfl, by simp⟩
    · dsimp only [] at h
      split at h
      · cases h
      · next doc2 himp =>
          cases h
          rcases importBytes_ok_inv himp with ⟨hm, c, hdec, rfl⟩
          refine ⟨rfl, ?_⟩
          simp only [mergeHistory_nil]
          exact decodeBytes_nodup hdec

theorem get_all_items_perm (m : SyncManager) :
    m.get_all_items.Perm (m.doc.history.map itemOfEntry) :=
  List.perm_insertionSort tsGe _

theorem get_all_items_sorted (m : SyncManager) :
    List.Sorted tsGe m.get_all_items :=
  List.sorted_insertionSort tsGe _

theorem mem_get_all_items {m : SyncManager} {e : String × Container}
    (he : e ∈ m.doc.history) : itemOfEntry e ∈ m.get_all_items :=
  (get_all_items_perm m).mem_iff.mpr (List.mem_map.mpr ⟨e, he, rfl⟩)

theorem itemOfEntry_itemFieldMap (i : String) (v : Nat × Nat)
    (item : HistoryItem) :
    itemOfEntry (i, ⟨v, itemFieldMap item⟩)
      = ⟨i, item.text, f64ToI64 (roundF64 item.timestamp), item.lang⟩ := rfl

theorem fsWrite_fsWrite (fs : FS) (path : String) (b : Bytes) :
    fsWrite (fsWrite fs path b) path b = fsWrite fs path b := by
  funext p
  unfold fsWrite
  by_cases hp : p = path
  · simp [hp]
  · simp [hp]

/-! ### Claim C1 — add then list -/

/-- Claim C1, amended: after a successful `add_item(I)` on any store, the very
next `get_all_items` contains an item agreeing with `I` on id, text and lang,
and whose timestamp is `I.timestamp` pushed through the double round-trip
(`f64ToI64` after `roundF64`) that `add_item`/`get_all_items` perform.  When
that round-trip returns `I.timestamp` itself is characterized separately by
`roundtrip_eq_iff` (double-representable values, plus the saturating
`i64::MAX` exception). -/
theorem add_then_list_contains (m : SyncManager) (fs : FS)
    (item : HistoryItem) :
    ∃ it ∈ (m.add_item fs item).1.get_all_items,
      it.id = item.id ∧ it.text = item.text ∧ it.lang = item.lang ∧
        it.timestamp = f64ToI64 (roundF64 item.timestamp) := by
  refine ⟨itemOfEntry (item.id,
    ⟨(m.doc.clock, m.doc.peer), itemFieldMap item⟩), ?_, ?_⟩
  · exact mem_get_all_items (mem_hmInsert m.doc.history item.id _)
  · rw [itemOfEntry_itemFieldMap]
    exact ⟨rfl, rfl, rfl, rfl⟩

/-- Claim C1, counterexample to the claim as stated: adding the item with
timestamp `2 ^ 53 + 1` (not representable as a double) to a fresh store, the
following `get_all_items` holds no item equal to it on all four fields — the
stored timestamp came back as `2 ^ 53`. -/
theorem add_then_list_contains_ce :
    ¬ ∃ it ∈ (ceStore.add_item emptyFS hugeItem).1.get_all_items,
        it.id = hugeItem.id ∧ it.text = hugeItem.text ∧
          it.timestamp = hugeItem.timestamp ∧ it.lang = hugeItem.lang := by
  decide

/-! ### Claim C3 — idempotent import -/

/-- Claim C3, confirmed: importing the same snapshot bytes twice in
succession returns the same result triple (outcome, store state, file
system) as importing them once — including identical `get_all_items`
output, which is a function of the store state. -/
theorem import_snapshot_idempotent (m : SyncManager) (fs : FS) (b : Bytes) :
    (m.import_snapshot fs b).2.1.import_snapshot
        (m.import_snapshot fs b).2.2 b
      = m.import_snapshot fs b := by
  unfold SyncManager.import_snapshot LoroDoc.importBytes
  cases hdec : decodeBytes b with
  | none => simp [hdec]
  | some hc =>
    obtain ⟨h, c⟩ := hc
    have hnd := decodeBytes_nodup hdec
    simp only [hdec]
    simp [SyncManager.save_to_disk, LoroDoc.exportSnapshot, fsWrite_fsWrite,
      mergeHistory_idem _ _ hnd, max_assoc, max_self]

/-! ### Claim C5 — failed merge is all-or-nothing -/

/-- Claim C5, confirmed: when the snapshot bytes do not decode,
`import_snapshot` returns the merge error and both the in-memory store and
the file system are exactly the pre-merge ones.  (The engine's import is
modelled from the spec as atomic: it either merges fully or reports failure
without touching local state.) -/
theorem import_snapshot_all_or_nothing (m : SyncManager) (fs : FS) (b : Bytes)
    (hbad : decodeBytes b = none) :
    (m.import_snapshot fs b).1 = .error "decode error" ∧
      (m.import_snapshot fs b).2.1 = m ∧ (m.import_snapshot fs b).2.2 = fs := by
  unfold SyncManager.import_snapshot LoroDoc.importBytes
  rw [hbad]
  exact ⟨rfl, rfl, rfl⟩

/-- Claim C5 witness: importing malformed bytes into a concrete fresh store
fails with the merge error and changes nothing. -/
theorem import_snapshot_all_or_nothing_witness :
    (ceStore.import_snapshot emptyFS (Bytes.malformed 0)).1
        = .error "decode error" ∧
      (ceStore.import_snapshot emptyFS (Bytes.malformed 0)).2.1 = ceStore ∧
      (ceStore.import_snapshot emptyFS (Bytes.malformed 0)).2.2 = emptyFS :=
  import_snapshot_all_or_nothing ceStore emptyFS (Bytes.malformed 0) rfl

/-! ### Claim C2 — persistence round-trip -/

/-- Claim C2, amended: construct a store at `path`, `add_item(I)`, discard the
instance, construct a fresh store at the same `path`: construction succeeds
and its `get_all_items` contains an item agreeing with `I` on id, text and
lang, with timestamp `I.timestamp` pushed through the double round-trip the
code performs (when that round-trip is the identity is characterized
separately by `roundtrip_eq_iff`). -/
theorem persistence_roundtrip (fs : FS) (path : String) (item : HistoryItem)
    (p1 p2 : Nat) (m0 : SyncManager)
    (h0 : SyncManager.new fs path p1 = .ok m0) :
    ∃ m2, SyncManager.new (m0.add_item fs item).2 path p2 = .ok m2 ∧
      ∃ it ∈ m2.get_all_items,
        it.id = item.id ∧ it.text = item.text ∧ it.lang = item.lang ∧
          it.timestamp = f64ToI64 (roundF64 item.timestamp) := by
  obtain ⟨hfp, hnd⟩ := new_ok_spec h0
  have hnd1 : (((m0.add_item fs item).1.doc.history).map Prod.fst).Nodup :=
    hmInsert_keys_nodup hnd
  have hfs1 : (m0.add_item fs item).2 path
      = some (Bytes.snap (m0.add_item fs item).1.doc.history
          (m0.add_item fs item).1.doc.clock) := by
    show fsWrite fs ((m0.add_item fs item).1.file_path) _ path = _
    have hfp1 : (m0.add_item fs item).1.file_path = path := hfp
    rw [hfp1]
    unfold fsWrite
    rw [if_pos rfl]
    rfl
  refine ⟨⟨⟨p2, max 0 (m0.add_item fs item).1.doc.clock,
    (m0.add_item fs item).1.doc.history⟩, path⟩, ?_, ?_⟩
  · unfold SyncManager.new
    rw [hfs1]
    dsimp only []
    rw [if_neg (by simp [Bytes.isEmpty])]
    unfold LoroDoc.importBytes
    dsimp only [decodeBytes]
    rw [if_pos hnd1]
    dsimp only []
    rw [mergeHistory_nil]
  · exact ⟨itemOfEntry (item.id,
      ⟨(m0.doc.clock, m0.doc.peer), itemFieldMap item⟩),
      mem_get_all_items (mem_hmInsert m0.doc.history item.id _),
      by rw [itemOfEntry_itemFieldMap]; exact ⟨rfl, rfl, rfl, rfl⟩⟩

/-- Claim C2 witness: the round-trip at a concrete path with `dogItem`
(timestamp `100`, double-representable, so the round-tripped timestamp is
`100` itself). -/
theorem persistence_roundtrip_witness :
    ∃ m2, SyncManager.new (ceStore.add_item emptyFS dogItem).2 "h" 2
        = .ok m2 ∧
      ∃ it ∈ m2.get_all_items,
        it.id = dogItem.id ∧ it.text = dogItem.text ∧ it.lang = dogItem.lang ∧
          it.timestamp = f64ToI64 (roundF64 dogItem.timestamp) :=
  persistence_roundtrip emptyFS "h" dogItem 1 2 ceStore rfl

/-- Claim C2, counterexample to the claim as stated: persisting `hugeItem`
(timestamp `2 ^ 53 + 1`) and rehydrating a fresh store from the written file
succeeds, but the fresh store's `get_all_items` holds no item equal to
`hugeItem` on all four fields — the timestamp came back as `2 ^ 53`. -/
theorem persistence_roundtrip_ce :
    SyncManager.new emptyFS "h" 1 = .ok ceStore ∧
    SyncManager.new ceFS1 "h" 2 = .ok ceM2 ∧
    ¬ ∃ it ∈ ceM2.get_all_items,
        it.id = hugeItem.id ∧ it.text = hugeItem.text ∧
          it.timestamp = hugeItem.timestamp ∧ it.lang = hugeItem.lang := by
  refine ⟨rfl, rfl, by decide⟩

/-! ### Claim C6 — construction errors -/

/-- Claim C6, amended: `SyncManager.new` succeeds with an empty document when
no file exists at `path` and also when the existing file is empty (the source
skips the import for empty bytes); it fails — without falling back to an
empty document — exactly when the existing file is non-empty and its bytes do
not decode; and it hydrates from any decodable file. -/
theorem new_error_characterization (fs : FS) (path : String) (p : Nat) :
    (fs path = none →
      SyncManager.new fs path p = .ok ⟨⟨p, 0, []⟩, path⟩) ∧
    (∀ b, fs path = some b → b.isEmpty = true →
      SyncManager.new fs path p = .ok ⟨⟨p, 0, []⟩, path⟩) ∧
    (∀ b, fs path = some b → b.isEmpty = false → decodeBytes b = none →
      SyncManager.new fs path p = .error "decode error") ∧
    (∀ b h c, fs path = some b → decodeBytes b = some (h, c) →
      SyncManager.new fs path p = .ok ⟨⟨p, max 0 c, h⟩, path⟩) := by
  refine ⟨?_, ?_, ?_, ?_⟩
  · intro hfs
    unfold SyncManager.new
    rw [hfs]
  · intro b hfs hbe
    unfold SyncManager.new
    rw [hfs]
    dsimp only []
    rw [if_pos hbe]
  · intro b hfs hbe hdec
    unfold SyncManager.new
    rw [hfs]
    dsimp only []
    rw [if_neg (by rw [hbe]; exact Bool.false_ne_true)]
    unfold LoroDoc.importBytes
    rw [hdec]
  · intro b h c hfs hdec
    unfold SyncManager.new
    rw [hfs]
    dsimp only []
    rw [if_neg (by rw [decodeBytes_not_empty hdec]; exact Bool.false_ne_true)]
    unfold LoroDoc.importBytes
    rw [hdec]
    dsimp only []
    rw [mergeHistory_nil]

/-- Claim C6 witness: construction on an absent file succeeds with an empty
document. -/
theorem new_error_characterization_witness :
    SyncManager.new emptyFS "h" 0 = .ok ⟨⟨0, 0, []⟩, "h"⟩ :=
  (new_error_characterization emptyFS "h" 0).1 rfl

/-- Claim C6, counterexample to the claim as stated: an existing but empty
file has bytes that do not decode, yet construction does not error — it falls
back to a store with an empty document. -/
theorem new_empty_file_ce :
    emptyFileFS "h" = some Bytes.empty ∧
    decodeBytes Bytes.empty = none ∧
    SyncManager.new emptyFileFS "h" 0 = .ok ⟨⟨0, 0, []⟩, "h"⟩ :=
  ⟨rfl, rfl, rfl⟩

/-! ### Claim C7 — delete then list -/

/-- Claim C7, confirmed: `delete_item(id)` removes the whole container at
`id` (no lookup succeeds afterwards and no listed item carries that id), and
deleting a non-existent id succeeds as a strict no-op: the store state — and
with it the item count and item set — is unchanged. -/
theorem delete_then_list (m : SyncManager) (fs : FS) (id : String) :
    (hmLookup (m.delete_item fs id).1.doc.history id = none ∧
      ∀ it ∈ (m.delete_item fs id).1.get_all_items, it.id ≠ id) ∧
    (hmLookup m.doc.history id = none → (m.delete_item fs id).1 = m) := by
  constructor
  · constructor
    · apply (hmLookup_eq_none_iff _ _).mpr
      intro e he
      have := (List.mem_filter.mp he).2
      rwa [bne_iff_ne] at this
    · intro it hit
      have hmem : it ∈ (m.delete_item fs id).1.doc.history.map itemOfEntry :=
        (get_all_items_perm _).mem_iff.mp hit
      rcases List.mem_map.mp hmem with ⟨e, he, rfl⟩
      have := (List.mem_filter.mp he).2
      rwa [bne_iff_ne] at this
  · intro hnone
    have hfilter : m.doc.history.filter (fun e => e.1 != id)
        = m.doc.history := by
      apply List.filter_eq_self.mpr
      intro e he
      exact bne_iff_ne.mpr ((hmLookup_eq_none_iff _ _).mp hnone e he)
    show ({ m with doc := { m.doc with
      history := m.doc.history.filter (fun e => e.1 != id) } } : SyncManager)
        = m
    rw [hfilter]

/-- Claim C7 witness: deleting an id absent from a concrete fresh store
leaves its state unchanged, and the container at the id is gone after the
call. -/
theorem delete_then_list_witness :
    hmLookup (ceStore.delete_item emptyFS "nope").1.doc.history "nope"
        = none ∧
      (ceStore.delete_item emptyFS "nope").1 = ceStore :=
  ⟨(delete_then_list ceStore emptyFS "nope").1.1,
    (delete_then_list ceStore emptyFS "nope").2 rfl⟩

/-! ### Claim C4 — commutative union of singleton replicas -/

theorem map_eq_singleton_inv {α β : Type _} {f : α → β} {l : List α} {x : β}
    (h : l.map f = [x]) : ∃ a, l = [a] ∧ f a = x := by
  cases l with
  | nil => cases h
  | cons e rest =>
    cases rest with
    | nil =>
      rw [List.map_cons, List.map_nil] at h
      cases h
      exact ⟨e, rfl, rfl⟩
    | cons e2 r2 => simp at h

theorem singleton_state_of_list {m : SyncManager} {X : HistoryItem}
    (h : m.get_all_items = [X]) :
    ∃ e, m.doc.history = [e] ∧ itemOfEntry e = X := by
  have hp : (m.doc.history.map itemOfEntry).Perm [X] := by
    have := (get_all_items_perm m).symm
    rwa [h] at this
  exact map_eq_singleton_inv (List.perm_singleton.mp hp)

theorem import_two_singletons {mA mB : SyncManager} (fsA : FS)
    {eA eB : String × Container} {X Y : HistoryItem}
    (hA : mA.doc.history = [eA]) (hB : mB.doc.history = [eB])
    (hAX : itemOfEntry eA = X) (hBY : itemOfEntry eB = Y)
    (hne : X.id ≠ Y.id) :
    (mA.import_snapshot fsA mB.doc.exportSnapshot).2.1.get_all_items.Perm
      [X, Y] := by
  have hkeys : eA.1 ≠ eB.1 := by
    intro hkk
    apply hne
    rw [← hAX, ← hBY]
    show eA.1 = eB.1
    exact hkk
  have hdec : decodeBytes mB.doc.exportSnapshot
      = some ([eB], mB.doc.clock) := by
    show decodeBytes (.snap mB.doc.history mB.doc.clock) = _
    rw [hB]
    dsimp only [decodeBytes]
    rw [if_pos (by simp)]
  have hhist :
      (mA.import_snapshot fsA mB.doc.exportSnapshot).2.1.doc.history
        = [eA, eB] := by
    unfold SyncManager.import_snapshot LoroDoc.importBytes
    rw [hdec]
    dsimp only []
    rw [hA, mergeHistory_singletons hkeys]
  have hperm :=
    get_all_items_perm (mA.import_snapshot fsA mB.doc.exportSnapshot).2.1
  rw [hhist] at hperm
  rw [List.map_cons, List.map_cons, List.map_nil, hAX, hBY] at hperm
  exact hperm

/-- Claim C4, confirmed: if replica A holds exactly item `X` and replica B
holds exactly item `Y` (with distinct ids), importing B's exported snapshot
into A and, separately, importing A's exported snapshot into B both yield the
item set `{X, Y}` (the listed items are a permutation of `[X, Y]` on both
sides); and in the concrete dog/cat instance, after importing B's snapshot
into A, `A.get_all_items` has length 2 with texts in the order
`["Cat", "Dog"]`. -/
theorem merge_commutative_union :
    (∀ (mA mB : SyncManager) (fsA fsB : FS) (X Y : HistoryItem),
      X.id ≠ Y.id →
      mA.get_all_items = [X] →
      mB.get_all_items = [Y] →
      (mA.import_snapshot fsA mB.doc.exportSnapshot).2.1.get_all_items.Perm
          [X, Y] ∧
        (mB.import_snapshot fsB mA.doc.exportSnapshot).2.1.get_all_items.Perm
          [X, Y]) ∧
    ((SyncManager.import_snapshot replicaA.1 replicaA.2
        replicaB.1.doc.exportSnapshot).2.1.get_all_items.length = 2 ∧
      (SyncManager.import_snapshot replicaA.1 replicaA.2
        replicaB.1.doc.exportSnapshot).2.1.get_all_items.map
          HistoryItem.text = ["Cat", "Dog"]) := by
  constructor
  · intro mA mB fsA fsB X Y hne hlA hlB
    obtain ⟨eA, hA, hAX⟩ := singleton_state_of_list hlA
    obtain ⟨eB, hB, hBY⟩ := singleton_state_of_list hlB
    constructor
    · exact import_two_singletons fsA hA hB hAX hBY hne
    · exact (import_two_singletons fsB hB hA hBY hAX
        (Ne.symm hne)).trans (List.Perm.swap X Y [])
  · exact ⟨by decide, by decide⟩

/-- Claim C4 witness: the general commutative-union statement applied to the
concrete dog/cat replicas in both directions. -/
theorem merge_commutative_union_witness :
    (SyncManager.import_snapshot replicaA.1 replicaA.2
        replicaB.1.doc.exportSnapshot).2.1.get_all_items.Perm
      [dogItem, catItem] ∧
    (SyncManager.import_snapshot replicaB.1 replicaB.2
        replicaA.1.doc.exportSnapshot).2.1.get_all_items.Perm
      [dogItem, catItem] :=
  merge_commutative_union.1 replicaA.1 replicaB.1 replicaA.2 replicaB.2
    dogItem catItem (by decide) (by decide) (by decide)

/-! ### Claim C8 — descending order by timestamp -/

/-- Claim C8, confirmed: for every store state, `get_all_items` returns
exactly the items of the document (as a permutation of the extracted
entries), sorted by timestamp in descending order; the concrete store with
timestamps `[100, 300, 200]` lists them as `[300, 200, 100]`; and an empty
document yields the empty sequence. -/
theorem list_sorted_desc :
    (∀ m : SyncManager,
      List.Sorted tsGe m.get_all_items ∧
        m.get_all_items.Perm (m.doc.history.map itemOfEntry)) ∧
    ordScenario.1.get_all_items.map HistoryItem.timestamp = [300, 200, 100] ∧
    (SyncManager.mk ⟨0, 0, []⟩ "p").get_all_items = [] :=
  ⟨fun m => ⟨get_all_items_sorted m, get_all_items_perm m⟩, by decide, rfl⟩

/-! ### Claim C9 — the id invariant -/

theorem mergeEntry_wf {b : HistoryMap} {e : String × Container}
    (hwfe : e.1 ≠ "" ∧ fmGet e.2.fields "id" = some (.str e.1))
    (hwfb : WFHistory b) :
    (mergeEntry b e).1 ≠ "" ∧
      fmGet (mergeEntry b e).2.fields "id" = some (.str (mergeEntry b e).1) := by
  cases hl : hmLookup b e.1 with
  | none =>
    have h1 : mergeEntry b e = e := by simp [mergeEntry, hl]
    rw [h1]
    exact hwfe
  | some cb =>
    by_cases hv : verLt e.2.ver cb.ver = true
    · have h1 : mergeEntry b e = (e.1, cb) := by simp [mergeEntry, hl, hv]
      rw [h1]
      exact hwfb (e.1, cb) (hmLookup_mem hl)
    · have h1 : mergeEntry b e = e := by simp [mergeEntry, hl, hv]
      rw [h1]
      exact hwfe

/-- Claim C9, confirmed (with "requires `item.id` non-empty" read as the
caller-side precondition it is in the design document): every operation
preserves the invariant that each surviving entry has a non-empty id stored
both as the map key and as the `id` field — `add_item` under the non-empty-id
precondition, `delete_item` unconditionally, `import_snapshot` for snapshots
whose decoded history satisfies the invariant, and construction, whether from
an absent file or hydrated from a file whose decoded snapshots satisfy it. -/
theorem id_invariant :
    (∀ (m : SyncManager) (fs : FS) (item : HistoryItem), item.id ≠ "" →
      WFHistory m.doc.history →
      WFHistory (m.add_item fs item).1.doc.history) ∧
    (∀ (m : SyncManager) (fs : FS) (id : String),
      WFHistory m.doc.history →
      WFHistory (m.delete_item fs id).1.doc.history) ∧
    (∀ (m : SyncManager) (fs : FS) (b : Bytes) (h : HistoryMap) (c : Nat),
      WFHistory m.doc.history → decodeBytes b = some (h, c) → WFHistory h →
      WFHistory (m.import_snapshot fs b).2.1.doc.history) ∧
    (∀ (fs : FS) (path : String) (p : Nat) (m : SyncManager),
      SyncManager.new fs path p = .ok m →
      (∀ b h c, fs path = some b → decodeBytes b = some (h, c) →
        WFHistory h) →
      WFHistory m.doc.history) := by
  refine ⟨?_, ?_, ?_, ?_⟩
  · intro m fs item hid hwf e he
    rcases List.mem_append.mp he with h1 | h2
    · exact hwf e (List.mem_filter.mp h1).1
    · rw [List.mem_singleton] at h2
      subst h2
      exact ⟨hid, rfl⟩
  · intro m fs id hwf e he
    exact hwf e (List.mem_filter.mp he).1
  · intro m fs b h c hwf hdec hwfb
    have hhist : (m.import_snapshot fs b).2.1.doc.history
        = mergeHistory m.doc.history h := by
      unfold SyncManager.import_snapshot LoroDoc.importBytes
      rw [hdec]
    rw [hhist]
    intro e he
    rcases List.mem_append.mp he with h1 | h2
    · rcases List.mem_map.mp h1 with ⟨e0, he0, rfl⟩
      exact mergeEntry_wf (hwf e0 he0) hwfb
    · exact hwfb e (List.mem_filter.mp h2).1
  · intro fs path p m hnew hfsw
    unfold SyncManager.new at hnew
    split at hnew
    · cases hnew
      intro e he
      cases he
    · rename_i b hb
      split at hnew
      · cases hnew
        intro e he
        cases he
      · dsimp only [] at hnew
        split at hnew
        · cases hnew
        · rename_i doc2 himp
          cases hnew
          rcases importBytes_ok_inv himp with ⟨hm, c, hdec, rfl⟩
          show WFHistory (mergeHistory [] hm)
          rw [mergeHistory_nil]
          exact hfsw b hm c hb hdec

/-- Claim C9 witness: the invariant after adding `dogItem` to a concrete
fresh store. -/
theorem id_invariant_witness :
    WFHistory (ceStore.add_item emptyFS dogItem).1.doc.history :=
  id_invariant.1 ceStore emptyFS dogItem (by decide)
    (fun e he => absurd he (List.not_mem_nil e))

/-! ### Claim C10 — the timestamp double round-trip -/

theorem log2f_spec :
    ∀ (f n : Nat), 0 < n → n < 2 ^ f →
      2 ^ log2f f n ≤ n ∧ n < 2 ^ (log2f f n + 1) := by
  intro f
  induction f with
  | zero =>
    intro n h0 h1
    rw [pow_zero] at h1
    omega
  | succ f ih =>
    intro n h0 h1
    by_cases h2 : n < 2
    · simp only [log2f, if_pos h2]
      refine ⟨?_, ?_⟩
      · have hz : (2:Nat) ^ 0 = 1 := by norm_num
        omega
      · have ho : (2:Nat) ^ (0 + 1) = 2 := by norm_num
        omega
    · simp only [log2f, if_neg h2]
      have hdpos : 0 < n / 2 := by omega
      have hdlt : n / 2 < 2 ^ f := by
        have hps : (2:Nat) ^ (f + 1) = 2 ^ f * 2 := by rw [pow_succ]
        omega
      obtain ⟨hlo, hhi⟩ := ih (n / 2) hdpos hdlt
      have hps1 : (2:Nat) ^ (log2f f (n / 2) + 1)
          = 2 ^ log2f f (n / 2) * 2 := by rw [pow_succ]
      have hps2 : (2:Nat) ^ (log2f f (n / 2) + 1 + 1)
          = 2 ^ (log2f f (n / 2) + 1) * 2 := by rw [pow_succ]
      omega

theorem natLog2_spec {n : Nat} (h0 : 0 < n) (h1 : n < 2 ^ 64) :
    2 ^ natLog2 n ≤ n ∧ n < 2 ^ (natLog2 n + 1) :=
  log2f_spec 64 n h0 h1

theorem natLog2_ge_53 {n : Nat} (hge : 2 ^ 53 ≤ n) (h64 : n < 2 ^ 64) :
    53 ≤ natLog2 n := by
  have hp53 : 0 < (2:Nat) ^ 53 := pow_pos (by omega) 53
  obtain ⟨_, hhi⟩ := natLog2_spec (by omega) h64
  by_contra hc
  push_neg at hc
  have : 2 ^ (natLog2 n + 1) ≤ 2 ^ 53 := Nat.pow_le_pow_right (by omega) (by omega)
  omega

theorem roundNat53_cases (n : Nat) (h : ¬ n < 2 ^ 53) :
    roundNat53 n = n / 2 ^ (natLog2 n - 52) * 2 ^ (natLog2 n - 52) ∨
    roundNat53 n = (n / 2 ^ (natLog2 n - 52) + 1) * 2 ^ (natLog2 n - 52) := by
  simp only [roundNat53, if_neg h]
  split
  · exact Or.inl rfl
  · split
    · exact Or.inr rfl
    · split
      · exact Or.inl rfl
      · exact Or.inr rfl

theorem roundNat53_lt {n : Nat} (h : n < 2 ^ 53) : roundNat53 n = n := by
  simp only [roundNat53, if_pos h]

theorem roundNat53_dvd {n : Nat} (hge : 2 ^ 53 ≤ n) (h64 : n < 2 ^ 64)
    (hdvd : n % 2 ^ (natLog2 n - 52) = 0) : roundNat53 n = n := by
  have hnot : ¬ n < 2 ^ 53 := by omega
  have h53 := natLog2_ge_53 hge h64
  have hulp2 : 2 ≤ 2 ^ (natLog2 n - 52) := by
    calc (2:Nat) = 2 ^ 1 := (pow_one 2).symm
    _ ≤ 2 ^ (natLog2 n - 52) := Nat.pow_le_pow_right (by omega) (by omega)
  simp only [roundNat53, if_neg hnot]
  rw [hdvd]
  rw [if_pos (by omega : 0 < 2 ^ (natLog2 n - 52) / 2)]
  exact Nat.div_mul_cancel (Nat.dvd_of_mod_eq_zero hdvd)

theorem roundNat53_ne {n : Nat} (hge : 2 ^ 53 ≤ n) (h64 : n < 2 ^ 64)
    (hdvd : n % 2 ^ (natLog2 n - 52) ≠ 0) : roundNat53 n ≠ n := by
  have hnot : ¬ n < 2 ^ 53 := by omega
  rcases roundNat53_cases n hnot with hc | hc
  · intro heq
    rw [hc] at heq
    have hmm := congrArg (fun x => x % 2 ^ (natLog2 n - 52)) heq
    simp only [Nat.mul_mod_left] at hmm
    exact hdvd hmm.symm
  · intro heq
    rw [hc] at heq
    have hmm := congrArg (fun x => x % 2 ^ (natLog2 n - 52)) heq
    simp only [Nat.mul_mod_left] at hmm
    exact hdvd hmm.symm

theorem roundNat53_le {n : Nat} (h63 : n ≤ 2 ^ 63) : roundNat53 n ≤ 2 ^ 63 := by
  by_cases hlt : n < 2 ^ 53
  · rw [roundNat53_lt hlt]
    exact h63
  · by_cases htop : n = 2 ^ 63
    · subst htop
      exact le_of_eq (by decide)
    · have hlt63 : n < 2 ^ 63 := by omega
      have h64 : n < 2 ^ 64 := by
        have : (2:Nat) ^ 63 ≤ 2 ^ 64 := Nat.pow_le_pow_right (by omega) (by omega)
        omega
      have h0 : 0 < n := by
        have : (0:Nat) < 2 ^ 53 := pow_pos (by omega) 53
        omega
      obtain ⟨hlo, hhi⟩ := natLog2_spec h0 h64
      have h53 := natLog2_ge_53 (by omega) h64
      have hsplit : (2:Nat) ^ (natLog2 n + 1)
          = 2 ^ 53 * 2 ^ (natLog2 n - 52) := by
        rw [← pow_add]
        congr 1
        omega
      have hle63 : (2:Nat) ^ (natLog2 n + 1) ≤ 2 ^ 63 := by
        apply Nat.pow_le_pow_right (by omega)
        by_contra hc
        push_neg at hc
        have : 2 ^ 63 ≤ 2 ^ natLog2 n := Nat.pow_le_pow_right (by omega) (by omega)
        omega
      have hq : n / 2 ^ (natLog2 n - 52) < 2 ^ 53 := by
        rw [Nat.div_lt_iff_lt_mul (pow_pos (by omega) _)]
        calc n < 2 ^ (natLog2 n + 1) := hhi
        _ = 2 ^ 53 * 2 ^ (natLog2 n - 52) := hsplit
      have hle : (n / 2 ^ (natLog2 n - 52) + 1) * 2 ^ (natLog2 n - 52)
          ≤ 2 ^ 63 := by
        calc (n / 2 ^ (natLog2 n - 52) + 1) * 2 ^ (natLog2 n - 52)
            ≤ 2 ^ 53 * 2 ^ (natLog2 n - 52) :=
              Nat.mul_le_mul_right _ (by omega)
        _ = 2 ^ (natLog2 n + 1) := hsplit.symm
        _ ≤ 2 ^ 63 := hle63
      rcases roundNat53_cases n hlt with hc | hc
      · rw [hc]
        calc n / 2 ^ (natLog2 n - 52) * 2 ^ (natLog2 n - 52)
            ≤ (n / 2 ^ (natLog2 n - 52) + 1) * 2 ^ (natLog2 n - 52) :=
              Nat.mul_le_mul_right _ (by omega)
        _ ≤ 2 ^ 63 := hle
      · rw [hc]
        exact hle

theorem isRepF64_of_small {v : Int} (hsm : v.natAbs ≤ 2 ^ 53) :
    isRepF64 v = true := by
  rcases Nat.lt_or_ge v.natAbs (2 ^ 53) with hl | hg
  · unfold isRepF64
    simp only [Bool.or_eq_true, decide_eq_true_eq]
    exact Or.inl hl
  · have hn : v.natAbs = 2 ^ 53 := by omega
    unfold isRepF64
    rw [hn]
    decide

theorem roundNat53_eq_self_iff {n : Nat} (h64 : n < 2 ^ 64) :
    roundNat53 n = n ↔
      (n < 2 ^ 53 ∨ n % 2 ^ (natLog2 n - 52) = 0) := by
  constructor
  · intro hRn
    rcases Nat.lt_or_ge n (2 ^ 53) with hl | hg
    · exact Or.inl hl
    · right
      by_contra hmod
      exact roundNat53_ne hg h64 hmod hRn
  · rintro (hl | hd)
    · exact roundNat53_lt hl
    · rcases Nat.lt_or_ge n (2 ^ 53) with hl2 | hg2
      · exact roundNat53_lt hl2
      · exact roundNat53_dvd hg2 h64 hd

theorem roundtrip_eq_iff (v : Int) (hlo : -(2 ^ 63) ≤ v) (hhi : v < 2 ^ 63) :
    f64ToI64 (roundF64 v) = v ↔ (isRepF64 v = true ∨ v = 2 ^ 63 - 1) := by
  have hp63 : (2:Nat) ^ 63 = 9223372036854775808 := by norm_num
  have hp64 : (2:Nat) ^ 64 = 18446744073709551616 := by norm_num
  have hp53 : (2:Nat) ^ 53 = 9007199254740992 := by norm_num
  have hip63 : (2:Int) ^ 63 = 9223372036854775808 := by norm_num
  obtain ⟨n, rfl | rfl⟩ := Int.eq_nat_or_neg v
  · -- non-negative case
    have habs : ((n : Int)).natAbs = n := Int.natAbs_ofNat n
    have hrep_iff : isRepF64 (n : Int) = true ↔
        (n < 2 ^ 53 ∨ n % 2 ^ (natLog2 n - 52) = 0) := by
      unfold isRepF64
      rw [habs]
      simp
    have hn63 : n < 2 ^ 63 := by omega
    have hn64 : n < 2 ^ 64 := by omega
    have hround : roundF64 (n : Int) = ((roundNat53 n : Nat) : Int) := by
      unfold roundF64
      rw [if_pos (by omega : (0:Int) ≤ (n : Int)), habs]
    have hRle : roundNat53 n ≤ 2 ^ 63 := roundNat53_le (by omega)
    rw [hround, hrep_iff]
    by_cases hRtop : roundNat53 n = 2 ^ 63
    · rw [hRtop]
      have hsat : f64ToI64 (((2 ^ 63 : Nat) : Nat) : Int) = 2 ^ 63 - 1 := by
        unfold f64ToI64
        rw [if_neg (by omega), if_pos (by omega)]
      rw [hsat]
      constructor
      · intro he
        exact Or.inr he.symm
      · rintro (hrep | htop)
        · exfalso
          have hRn : roundNat53 n = n := (roundNat53_eq_self_iff hn64).mpr hrep
          rw [hRn] at hRtop
          omega
        · exact htop.symm
    · have hRlt : roundNat53 n < 2 ^ 63 := by omega
      have hsat : f64ToI64 ((roundNat53 n : Nat) : Int)
          = ((roundNat53 n : Nat) : Int) := by
        unfold f64ToI64
        rw [if_neg (by omega), if_neg (by omega)]
      rw [hsat]
      constructor
      · intro he
        left
        have hRn : roundNat53 n = n := by exact_mod_cast he
        exact (roundNat53_eq_self_iff hn64).mp hRn
      · rintro (hrep | htop)
        · have hRn : roundNat53 n = n := (roundNat53_eq_self_iff hn64).mpr hrep
          exact_mod_cast congrArg (fun x : Nat => (x : Int)) hRn
        · exfalso
          have hn' : n = 2 ^ 63 - 1 := by omega
          have : roundNat53 (2 ^ 63 - 1) = 2 ^ 63 := by decide
          rw [hn'] at hRtop
          exact hRtop (by rw [this])
  · -- non-positive case
    have habs : ((-(n : Int))).natAbs = n := by simp
    have hrep_iff : isRepF64 (-(n : Int)) = true ↔
        (n < 2 ^ 53 ∨ n % 2 ^ (natLog2 n - 52) = 0) := by
      unfold isRepF64
      rw [habs]
      simp
    have hn63 : n ≤ 2 ^ 63 := by omega
    have hn64 : n < 2 ^ 64 := by omega
    have hround : roundF64 (-(n : Int)) = -((roundNat53 n : Nat) : Int) := by
      by_cases hn0 : n = 0
      · subst hn0
        decide
      · unfold roundF64
        rw [if_neg (by omega : ¬ (0:Int) ≤ -(n : Int)), habs]
    have hRle : roundNat53 n ≤ 2 ^ 63 := roundNat53_le hn63
    have hsat : f64ToI64 (-((roundNat53 n : Nat) : Int))
        = -((roundNat53 n : Nat) : Int) := by
      unfold f64ToI64
      rw [if_neg (by omega), if_neg (by omega)]
    rw [hround, hsat, hrep_iff]
    have hnottop : ¬ (-(n : Int) = 2 ^ 63 - 1) := by omega
    constructor
    · intro he
      left
      have hRn : roundNat53 n = n := by omega
      exact (roundNat53_eq_self_iff hn64).mp hRn
    · rintro (hrep | htop)
      · have hRn : roundNat53 n = n := (roundNat53_eq_self_iff hn64).mpr hrep
        omega
      · exact absurd htop hnottop

/-- Claim C10, amended: `add_item` stores the `i64` timestamp as a double
(`roundF64`, round to nearest, ties to even) and `get_all_items` casts it
back with Rust's saturating `as i64` cast (`f64ToI64`).  The value
round-trips exactly if and only if it is exactly representable as a double
— with the single exception `i64::MAX = 2 ^ 63 - 1`, which is not
representable (it rounds up to `2 ^ 63`) yet comes back unchanged because
the saturating cast clamps `2 ^ 63` down to `i64::MAX`.  In particular every
value of magnitude at most `2 ^ 53` round-trips exactly. -/
theorem timestamp_roundtrip_iff (v : Int) (hlo : -(2 ^ 63) ≤ v)
    (hhi : v < 2 ^ 63) :
    (f64ToI64 (roundF64 v) = v ↔ (isRepF64 v = true ∨ v = 2 ^ 63 - 1)) ∧
    (v.natAbs ≤ 2 ^ 53 → f64ToI64 (roundF64 v) = v) :=
  ⟨roundtrip_eq_iff v hlo hhi,
    fun hsm => (roundtrip_eq_iff v hlo hhi).mpr (Or.inl (isRepF64_of_small hsm))⟩

/-- Claim C10 witness: the characterization applied at the concrete
timestamp `100`. -/
theorem timestamp_roundtrip_iff_witness :
    ((f64ToI64 (roundF64 100) = 100 ↔
        (isRepF64 100 = true ∨ (100 : Int) = 2 ^ 63 - 1)) ∧
      ((100 : Int).natAbs ≤ 2 ^ 53 → f64ToI64 (roundF64 100) = 100)) :=
  timestamp_roundtrip_iff 100 (by decide) (by decide)

/-- Claim C10, counterexample to the claim as stated: `i64::MAX = 2 ^ 63 - 1`
is not exactly representable as a double, yet it round-trips unchanged
through `add_item` and `get_all_items`, because the rounded double `2 ^ 63`
saturates back to `i64::MAX` under Rust's `as i64` cast. -/
theorem timestamp_roundtrip_ce :
    isRepF64 (2 ^ 63 - 1) = false ∧
    f64ToI64 (roundF64 (2 ^ 63 - 1)) = 2 ^ 63 - 1 ∧
    (ceStore.add_item emptyFS ⟨"m", "t", 2 ^ 63 - 1, "l"⟩).1.get_all_items.map
        HistoryItem.timestamp = [2 ^ 63 - 1] :=
  ⟨by decide, by decide, by decide⟩
